import Mathlib

/-!
Verification of the optimal-wordle-solver core.

Shallow embedding of the repository's core (`wordle.py`, `wordle_simulator.py`):
the feedback scorer `make_guess`, the constraint state `WordleInformation`
(its constructor, `is_valid_word` and `_members`), the guess valuator
`get_guess_value`, the ranker `rank_guesses` and the game simulator
`play_game`, together with proofs about them.

Modelling conventions:
* Words are `List Char`; the game length is fixed at 5, as in the source.
  All claims quantify over five-letter words, matching the Python code whose
  indexing (`answer[idx]`, `word[idx]`, `possible_letters[idx]`) assumes them.
* Python dicts holding letter counts are association lists (`List (Char × Nat)`)
  whose update `alSet` keeps keys sorted, so that `sorted(dict)` is the list of
  keys in order; per-position letter sets are `List Char` kept sorted and
  duplicate-free (they start from the sorted alphabet and only shrink), so list
  equality coincides with Python's set equality.
* Python exceptions are explicit: a `WordleInformation` construction that would
  raise (`KeyError`/`IndexError` in the minimum-count floor pass) yields `none`;
  numeric code returns `Except PyError _` where `PyError.zeroDivision` is
  Python's `ZeroDivisionError` and `PyError.keyError` a construction failure.
* Python floats are modelled as `ℚ` (all quantities involved are exact).
* `lru_cache` and the word-string packing hack in `_get_remaining_words` are
  semantically transparent (the packed string splits back into the same
  five-letter words) and are not modelled.
* `multiprocessing.Pool.map` is an external collaborator, modelled by its
  observed behavior at the source's `chunksize = len(pool) // 12` argument:
  with chunk size 0 (fewer than 12 guesses) CPython marks the result ready
  immediately and returns `[None] * len` without invoking any worker; with a
  positive chunk size the chunked map is an order-preserving map of the pure
  worker function.
-/

/-- Python exceptions that the embedded code can raise.
`zeroDivision` is `ZeroDivisionError` (from `weighted_average /= sum(weights)`);
`keyError` stands for the `KeyError`/`IndexError` that
`WordleInformation.__init__` raises in its minimum-count floor pass when a
position's letter set is a singleton whose letter has no recorded minimum
(or has become empty). -/
inductive PyError where
  | zeroDivision
  | keyError
deriving Repr, DecidableEq

/-- The lowercase alphabet, as in `set("abcdefghijklmnopqrstuvwxyz")`
(kept as a sorted duplicate-free list). -/
def alphabet : List Char := "abcdefghijklmnopqrstuvwxyz".toList

/-- Association-list model of a Python `dict` from letters to counts. -/
abbrev AssocNat := List (Char × Nat)

/-- `d.get(c)`: first binding of `c`, if any. -/
def alGet : AssocNat → Char → Option Nat
  | [], _ => none
  | (d, v) :: rest, c => if c = d then some v else alGet rest c

/-- `d[c] = v`: replace the binding of `c`, inserting in key order if absent. -/
def alSet : AssocNat → Char → Nat → AssocNat
  | [], c, v => [(c, v)]
  | (d, w) :: rest, c, v =>
    if c = d then (c, v) :: rest
    else if c < d then (c, v) :: (d, w) :: rest
    else (d, w) :: alSet rest c v

/-- The `if letter not in d: d[letter] = 0; d[letter] += 1` idiom. -/
def alBump (l : AssocNat) (c : Char) : AssocNat :=
  alSet l c ((alGet l c).getD 0 + 1)

/-! ## The feedback scorer `make_guess` (wordle.py lines 161-194) -/

/-- Subtract one occurrence of `g` from a `Counter` (counts may go negative,
as Python's `Counter.subtract` allows). -/
def subOne (tc : Char → Int) (g : Char) : Char → Int :=
  fun d => if d = g then tc d - 1 else tc d

/-- First pass of `make_guess`: mark green tiles and remove them from the
answer's letter `Counter`.  Processes the guess and answer positionally. -/
def greenPass : List (Char × Char) → (Char → Int) → List Char × (Char → Int)
  | [], tc => ([], tc)
  | (g, a) :: rest, tc =>
    if g = a then
      let p := greenPass rest (subOne tc g)
      ('=' :: p.1, p.2)
    else
      let p := greenPass rest tc
      ('-' :: p.1, p.2)

/-- Second pass of `make_guess`: skip green tiles; mark yellow while the
guessed letter still has remaining count, otherwise leave gray. -/
def yellowPass : List (Char × Char) → (Char → Int) → List Char
  | [], _ => []
  | (g, r) :: rest, tc =>
    if r = '=' then '=' :: yellowPass rest tc
    else if 0 < tc g then '+' :: yellowPass rest (subOne tc g)
    else '-' :: yellowPass rest tc

/-- `make_guess(guess, answer)`: the five-character feedback string,
`'='` green, `'+'` yellow, `'-'` gray (equal-length inputs; the game
plays five-letter words). -/
def make_guess (guess answer : List Char) : List Char :=
  let p := greenPass (guess.zip answer) (fun c => (answer.count c : Int))
  yellowPass (guess.zip p.1) p.2

/-- The all-green feedback `"====="`. -/
def allGreen : List Char := "=====".toList

/-! ## The constraint state `WordleInformation` (wordle.py lines 24-158) -/

/-- `WordleInformation`: per-position possible letters, minimum and maximum
required letter counts. -/
structure WordleInformation where
  possible_letters : List (List Char)
  minimum_letters : AssocNat
  maximum_letters : AssocNat
deriving Repr, DecidableEq

/-- The fresh state: every letter possible everywhere, no bounds. -/
def emptyWI : WordleInformation := ⟨List.replicate 5 alphabet, [], []⟩

/-- Green/yellow pass of `WordleInformation.__init__` (lines 69-84).
The Python loop walks `enumerate(zip(guess, output))` touching position
`idx` only at step `idx`; this is rendered as a lockstep recursion over the
feedback pairs and the position sets.  Green pins the position to the
guessed letter; yellow removes it from the position; both tally `new_min`. -/
def processGY : List (Char × Char) → List (List Char) → AssocNat →
    List (List Char) × AssocNat
  | [], pl, nm => (pl, nm)
  | _ :: _, [], nm => ([], nm)
  | (letter, symbol) :: rest, s :: pl, nm =>
    if symbol = '=' then
      let r := processGY rest pl (alBump nm letter)
      ([letter] :: r.1, r.2)
    else if symbol = '+' then
      let r := processGY rest pl (alBump nm letter)
      (s.filter (fun x => x ≠ letter) :: r.1, r.2)
    else
      let r := processGY rest pl nm
      (s :: r.1, r.2)

/-- Gray pass of `WordleInformation.__init__` (lines 88-101): a gray tile on
`letter` sets `new_max[letter]` to this round's green/yellow tally
(`new_min.get(letter, 0)`; the preceding `new_max[letter] = 0` store is dead
and omitted); a zero maximum removes the letter from every position. -/
def processGray : List (Char × Char) → List (List Char) → AssocNat → AssocNat →
    List (List Char) × AssocNat
  | [], pl, _, nmax => (pl, nmax)
  | (letter, symbol) :: rest, pl, nmin, nmax =>
    if symbol = '-' then
      let v := (alGet nmin letter).getD 0
      let pl' := if v = 0 then pl.map (fun s => s.filter (fun x => x ≠ letter)) else pl
      processGray rest pl' nmin (alSet nmax letter v)
    else
      processGray rest pl nmin nmax

/-- Lines 103-104: merge the round's tallies into the running minimums by
elementwise maximum. -/
def mergeMins : AssocNat → AssocNat → AssocNat
  | minl, [] => minl
  | minl, (c, v) :: rest => mergeMins (alSet minl c (max v ((alGet minl c).getD 0))) rest

/-- Line 105: `maximum_letters.update(new_max)`. -/
def updateMax : AssocNat → AssocNat → AssocNat
  | maxl, [] => maxl
  | maxl, (c, v) :: rest => updateMax (alSet maxl c v) rest

/-- One iteration of the minimum-count floor pass (lines 109-115): a position
whose set collapsed to one letter forces that letter's minimum up to the
number of positions pinned to it.  `none` models the Python exceptions:
`list(to_match)[0]` on an empty set (`IndexError`) and the unguarded
`minimum_letters[letter]` read (`KeyError`). -/
def postStep (pl : List (List Char)) (minl : AssocNat) (idx : Nat) : Option AssocNat :=
  let s := pl.getD idx []
  if s.length > 1 then some minl
  else
    match s.head? with
    | none => none
    | some letter =>
      let num_matches := (pl.filter (fun x => x = s)).length
      match alGet minl letter with
      | none => none
      | some old => some (alSet minl letter (max num_matches old))

/-- The minimum-count floor pass over positions 0..4. -/
def postProcess (pl : List (List Char)) (minl : AssocNat) : Option AssocNat :=
  (List.range 5).foldlM (fun m i => postStep pl m i) minl

/-- `WordleInformation.__init__(previous_wi, guess, output)`: copy the previous
state (or start fresh), incorporate one guess/feedback pair if given, and run
the minimum-count floor pass.  `none` models a raised exception. -/
def derive (prev : Option WordleInformation) (go : Option (List Char × List Char)) :
    Option WordleInformation :=
  let pl0 := match prev with | none => List.replicate 5 alphabet | some w => w.possible_letters
  let minl0 := match prev with | none => [] | some w => w.minimum_letters
  let maxl0 := match prev with | none => [] | some w => w.maximum_letters
  match go with
  | some (guess, output) =>
    let r1 := processGY (guess.zip output) pl0 []
    let r2 := processGray (guess.zip output) r1.1 r1.2 []
    let minl1 := mergeMins minl0 r1.2
    let maxl1 := updateMax maxl0 r2.2
    (postProcess r2.1 minl1).map (fun m => ⟨r2.1, m, maxl1⟩)
  | none => (postProcess pl0 minl0).map (fun m => ⟨pl0, m, maxl0⟩)

/-- `WordleInformation.is_valid_word(word)` (lines 122-141): every position's
letter allowed there, every maximum respected, every minimum met.
(`'?'` is never a member of a position set, so words shorter than five
letters are rejected; Python would raise on them.) -/
def WordleInformation.is_valid_word (wi : WordleInformation) (word : List Char) : Bool :=
  ((List.range 5).all fun idx => (wi.possible_letters.getD idx []).contains (word.getD idx '?'))
  && (wi.maximum_letters.all fun p => word.count p.1 ≤ p.2)
  && (wi.minimum_letters.all fun p => p.2 ≤ word.count p.1)

/-- `WordleInformation._members()` (lines 143-152): the per-position sets and
the *sorted keys* (only) of the two bound dicts — the dict values are dropped.
Association lists are kept key-sorted, so `map Prod.fst` is Python's
`tuple(sorted(dict))`. -/
def WordleInformation.members (wi : WordleInformation) :
    List (List Char) × List Char × List Char :=
  (wi.possible_letters, wi.minimum_letters.map Prod.fst, wi.maximum_letters.map Prod.fst)

/-- `__eq__` (line 157): structural equality of `_members()`.  `__hash__`
hashes `_members()`, so `eqPy a b = true` also forces equal hashes. -/
def WordleInformation.eqPy (a b : WordleInformation) : Bool :=
  decide (a.members = b.members)

/-! ## The guess valuator (wordle.py lines 197-271) -/

/-- `_get_remaining_words(wi, guess, out, possible_words_str)`: the number of
words still valid under the state derived from one more guess/feedback pair.
The `lru_cache` and the pack-words-into-one-string hack are semantically
transparent and not modelled; `none` models a construction exception. -/
def get_remaining_words (wi : WordleInformation) (guess out : List Char)
    (possible_words : List (List Char)) : Option Nat :=
  (derive (some wi) (some (guess, out))).map fun nwi =>
    (possible_words.filter fun w => nwi.is_valid_word w).length

/-- The per-hypothetical-answer remaining-word counts computed by the loop in
`get_guess_value` (lines 257-264): `0` for an all-green feedback, otherwise
the count of still-valid words. -/
def remainingCounts (guess : List Char) (possible_words : List (List Char))
    (wi : WordleInformation) : Option (List Nat) :=
  possible_words.mapM fun word =>
    let out := make_guess guess word
    if out = allGreen then some 0
    else get_remaining_words wi guess out possible_words

/-- `get_guess_value(guess, possible_words, weights, wi)` (lines 234-271):
average remaining words for a guess.  A missing `wi` means a fresh state, a
missing `weights` means uniform weight 1.  The final
`weighted_average /= sum(weights)` raises `ZeroDivisionError` when the weight
sum is zero. -/
def get_guess_value (guess : List Char) (possible_words : List (List Char))
    (weights : Option (List ℚ)) (wi0 : Option WordleInformation) : Except PyError ℚ :=
  let wi := wi0.getD emptyWI
  let ws := weights.getD (List.replicate possible_words.length (1 : ℚ))
  match remainingCounts guess possible_words wi with
  | none => .error .keyError
  | some counts =>
    let weighted_average := (counts.zip ws).foldl (fun acc p => acc + (p.1 : ℚ) * p.2) 0
    if ws.sum = 0 then .error .zeroDivision
    else .ok (weighted_average / ws.sum)

/-! ## The ranker `rank_guesses` (wordle.py lines 280-311) -/

/-- The explicit single-threaded loop of `rank_guesses` (`threads == 1`):
`values.append(get_guess_value(...))` for each guess in order.  The values
are floats, never Python `None`; they share the pool path's value type
`Option ℚ` (`some` marking a float) since both feed the same
`sorted(zip(values, possible_guesses))`. -/
def seqGuessValues (gs answers : List (List Char)) (weights : Option (List ℚ))
    (wi : Option WordleInformation) : Except PyError (List (Option ℚ)) :=
  gs.foldlM (fun acc g => (get_guess_value g answers weights wi).map fun v => acc ++ [some v]) []

/-- The worker side of `pool.map` once the chunk size is at least one: the
pool chops the guess list into chunks, the workers apply `get_guess_value`
to every element, and the pool reassembles the partial results in order —
an order-preserving map of the pure worker function (a worker exception
propagates to the caller). -/
def poolWorkerMap (answers : List (List Char)) (weights : Option (List ℚ))
    (wi : Option WordleInformation) : List (List Char) → Except PyError (List (Option ℚ))
  | [] => .ok []
  | g :: rest =>
    match get_guess_value g answers weights wi with
    | .error e => .error e
    | .ok v => (poolWorkerMap answers weights wi rest).map fun vs => some v :: vs

/-- `pool.map(partial(get_guess_value, ...), possible_guesses,
chunksize=len(possible_guesses) // 12)` (wordle.py line 308).  With fewer
than 12 guesses the chunk size is 0, and CPython's `Pool.map` then marks the
`MapResult` ready immediately and returns `[None] * len(possible_guesses)`
without ever invoking a worker; with a positive chunk size it maps the
worker over every guess in order. -/
def poolMapValues (answers : List (List Char)) (weights : Option (List ℚ))
    (wi : Option WordleInformation) (gs : List (List Char)) :
    Except PyError (List (Option ℚ)) :=
  if gs.length / 12 = 0 then .ok (List.replicate gs.length none)
  else poolWorkerMap answers weights wi gs

/-- Python string `<=`: lexicographic comparison by character. -/
def strLe : List Char → List Char → Bool
  | [], _ => true
  | _ :: _, [] => false
  | x :: xs, y :: ys => if x = y then strLe xs ys else decide (x < y)

/-- Python tuple order on `(value, guess)` pairs as used by
`sorted(guess_value)`: equal values fall through to the guess string,
distinct floats compare by `<`.  A `None` value occurs only when the pool
never invoked its workers, and then every value is `None`, so `None` is
only ever compared to itself (equal, falling through to the string);
Python would raise `TypeError` on a mixed comparison, which cannot arise
in any `rank_guesses` output — the model orders `none` below `some` to
keep the comparison total. -/
def pairLe (p q : Option ℚ × List Char) : Bool :=
  if p.1 = q.1 then strLe p.2 q.2
  else
    match p.1, q.1 with
    | some a, some b => decide (a < b)
    | none, _ => true
    | _, none => false

/-- `rank_guesses(possible_guesses, possible_answers, weights, wi, threads)`
(lines 280-311): evaluate every guess (single-threaded loop when
`threads == 1`, the worker pool otherwise) and return
`sorted(zip(values, possible_guesses))`.  The `lru_cache` and the pool
restart are semantically transparent and not modelled. -/
def rank_guesses (possible_guesses possible_answers : List (List Char))
    (weights : Option (List ℚ)) (wi : Option WordleInformation) (threads : Nat) :
    Except PyError (List (Option ℚ × List Char)) :=
  (if threads = 1 then seqGuessValues possible_guesses possible_answers weights wi
   else poolMapValues possible_answers weights wi possible_guesses).map
    fun values => (values.zip possible_guesses).mergeSort pairLe

/-! ## The game simulator `play_game` (wordle_simulator.py lines 19-96) -/

/-- The body of `play_game`'s `while True:` loop.  `fuel` is the number of
rounds that may still be played; the caller starts it at 6 and the
`guess_count == 6` check fires before it runs out, exactly as the Python loop
stops.  Each round: score the guess, derive the new state, filter the
candidate words and weights (`zip` truncates, as in Python), rank the full
guess pool (threads defaults to 4), then — in source order — handle an empty
ranking (`return 7`), pick the next guess (top-ranked, or in hard mode the
first ranked word among the candidates), return the round count on an
all-green score, and return 7 after round six. -/
def playLoop (answer : List Char) (pool : List (List Char)) (hard_mode : Bool) :
    Nat → WordleInformation → List Char → List (List Char) → List ℚ → Nat →
    Except PyError Nat
  | 0, _, _, _, _, _ => .ok 7
  | fuel + 1, wi, guess, sols, weights, guess_count =>
    let out := make_guess guess answer
    match derive (some wi) (some (guess, out)) with
    | none => .error .keyError
    | some wi' =>
      let count' := guess_count + 1
      let kept := (sols.zip weights).filter fun p => wi'.is_valid_word p.1
      let sols' := kept.map Prod.fst
      let weights' := kept.map Prod.snd
      match rank_guesses pool sols' (some weights') (some wi') 4 with
      | .error e => .error e
      | .ok ranked =>
        if ranked.length = 0 then .ok 7
        else
          let guess' :=
            if hard_mode then
              ((ranked.find? fun p => sols'.contains p.2).map Prod.snd).getD guess
            else (ranked.headD (none, guess)).2
          if out = allGreen then .ok count'
          else if count' = 6 then .ok 7
          else playLoop answer pool hard_mode fuel wi' guess' sols' weights' count'

/-- `play_game(answer, initial_guess, possible_words, weights, hard_mode)`:
returns 8 immediately when the answer is not in the word list, otherwise runs
up to six rounds; the round count on a win, 7 otherwise.  An uncaught Python
exception is `.error`. -/
def play_game (answer initial_guess : List Char) (possible_words : List (List Char))
    (weights : List ℚ) (hard_mode : Bool) : Except PyError Nat :=
  if answer ∈ possible_words then
    playLoop answer possible_words hard_mode 6 emptyWI initial_guess possible_words weights 0
  else .ok 8

/-- A twelve-word guess pool (twelve five-letter words, `"grain"` first):
large enough that `chunksize = 12 // 12 = 1`, so the worker pool actually
invokes `get_guess_value`. -/
def pool12 : List (List Char) :=
  ["grain".toList, "aback".toList, "abase".toList, "abate".toList,
   "abbey".toList, "abbot".toList, "abhor".toList, "abide".toList,
   "abled".toList, "abode".toList, "abort".toList, "about".toList]

/-! ## Derivation sequences -/

/-- The state reached from the fresh state by a sequence of arbitrary
guess/feedback derive steps (`none` if any step raises). -/
def buildStates (steps : List (List Char × List Char)) : Option WordleInformation :=
  steps.foldlM (fun wi go => derive (some wi) (some go)) emptyWI

/-- The state reached from the fresh state by guessing `guesses` in order
against the fixed answer `answer`, with truthful `make_guess` feedback. -/
def buildInfo (answer : List Char) (guesses : List (List Char)) :
    Option WordleInformation :=
  guesses.foldlM (fun wi g => derive (some wi) (some (g, make_guess g answer))) emptyWI

/-- The weighted average stated by the spec: the sum of remaining-count times
weight over the hypothetical answers, divided by the sum of the weights. -/
def specWeightedAverage (counts : List Nat) (ws : List ℚ) : ℚ :=
  ((counts.zip ws).map fun p => (p.1 : ℚ) * p.2).sum / ws.sum

/-! ## C8: duplicate-letter feedback and asymmetry -/

/-- C8 (confirmed): `make_guess` implements the two-pass multiset rule:
`make_guess("apple","apexz") = "==--+"`, `make_guess("apexz","apple") = "==+--"`,
`make_guess("appep","apple") = "===+-"`, and consequently `make_guess` is not
symmetric (the first two results differ). -/
theorem c8_duplicate_letter_feedback :
    make_guess "apple".toList "apexz".toList = "==--+".toList ∧
    make_guess "apexz".toList "apple".toList = "==+--".toList ∧
    make_guess "appep".toList "apple".toList = "===+-".toList ∧
    make_guess "apple".toList "apexz".toList ≠ make_guess "apexz".toList "apple".toList :=
  ⟨by decide, by decide, by decide, by decide⟩

/-! ## C10: `_members` drops the dict values -/

/-- C10 (confirmed): two states reachable by derive steps with identical
per-position sets and identical key sets of `minimum_letters` and
`maximum_letters`, but different stored counts (`z ↦ 1` versus `z ↦ 2`),
compare equal under `__eq__` and have equal `_members()` — hence equal
`__hash__` values — because `_members` keeps only `sorted(dict)`, the keys. -/
theorem c10_members_ignore_count_values :
    ((buildStates [("zzzzz".toList, "-----".toList), ("zzzzz".toList, "+----".toList)]).bind
      fun a => (buildStates [("zzzzz".toList, "-----".toList), ("zzzzz".toList, "++---".toList)]).map
      fun b =>
        (a.possible_letters == b.possible_letters,
         a.minimum_letters.map Prod.fst == b.minimum_letters.map Prod.fst,
         a.maximum_letters.map Prod.fst == b.maximum_letters.map Prod.fst,
         a.minimum_letters == b.minimum_letters,
         a.maximum_letters == b.maximum_letters,
         a.eqPy b, decide (a.members = b.members)))
      = some (true, true, true, false, false, true, true) := by rfl

/-! ## C1: the cross-round minimum/maximum contradiction -/

/-- C1 counterexample: the state reached from the empty state by the derive
steps `("aaaaa", "+++++")` then `("aaaaa", "-----")` has
`minimum_letters['a'] = 5` and `maximum_letters['a'] = 0`: a letter with a
nonzero minimum from an earlier round and no green/yellow occurrence in the
current round gets its maximum clamped to the current round's zero tally, so
`minimum_letters[c] ≤ maximum_letters[c]` fails on reachable states. -/
theorem c1_counterexample :
    ((buildStates [("aaaaa".toList, "+++++".toList), ("aaaaa".toList, "-----".toList)]).map
      fun wi => (alGet wi.minimum_letters 'a', alGet wi.maximum_letters 'a'))
      = some (some 5, some 0) ∧ ¬ (5 : Nat) ≤ 0 :=
  ⟨by decide, by decide⟩

/-! ## C6: valuation of an empty candidate set / zero weight sum -/

unseal Rat.add Rat.mul Rat.inv in
/-- C6 counterexample: with an empty candidate list and explicit weights
`[1, 1]`, `get_guess_value` returns the numeric result `0` instead of failing;
with an empty candidate list and default weights (weight sum zero) it fails
with Python's `ZeroDivisionError`, an arithmetic error — there is no explicit
"nothing to evaluate" condition anywhere in the code. -/
theorem c6_counterexample :
    get_guess_value "grain".toList [] (some [1, 1]) none = .ok 0 ∧
    get_guess_value "grain".toList [] none none = .error .zeroDivision :=
  ⟨by rfl, by rfl⟩

/-- C6 (corrected): on an empty candidate list, `get_guess_value` raises
`ZeroDivisionError` when the weights are absent or sum to zero, and otherwise
returns `0`; the failure is the uncaught arithmetic error of
`weighted_average /= sum(weights)`, not a distinct "nothing to evaluate"
condition. -/
theorem c6_amended (g : List Char) (wi : Option WordleInformation)
    (w : Option (List ℚ)) :
    get_guess_value g [] w wi =
      match w with
      | none => .error .zeroDivision
      | some ws => if ws.sum = 0 then .error .zeroDivision else .ok 0 := by
  cases w with
  | none => rfl
  | some ws =>
    show (if ws.sum = 0 then _ else Except.ok ((0 : ℚ) / ws.sum)) = _
    split <;> simp_all

/-! ## C5 and C7: simulator counterexamples -/

unseal List.merge List.mergeSort in
/-- C5 counterexample: a game whose candidate set becomes empty mid-game
(via the weight/solution `zip` truncation with an empty weights tuple) never
reports a distinct "no consistent candidates" outcome.  Over the twelve-word
pool (chunk size `12 // 12 = 1`, so the ranking workers run) the game
crashes with the uncaught `ZeroDivisionError` raised inside
`get_guess_value` over the empty candidate set; over the one-word pool
`("grain",)` the chunk size is `1 // 12 = 0`, `pool.map` returns
`[(None, "grain")]` without running a worker, and the game returns the Won
round count 1 even though every candidate had been filtered out —
contradicting both halves of the claim. -/
theorem c5_counterexample :
    play_game "grain".toList "grain".toList pool12 [] false
      = .error .zeroDivision ∧
    play_game "grain".toList "grain".toList ["grain".toList] [] false = .ok 1 :=
  ⟨by rfl, by rfl⟩

/-! ## C7: counterexample -/

unseal Rat.add Rat.mul Rat.inv in
/-- C7 counterexample: `play_game` does not always terminate with one of the
three claimed outcomes: over the twelve-word pool (chunk size 1, so the
ranking workers run) with all candidate weights zero, the surviving
candidate's weight sum is zero and the game terminates with an uncaught
`ZeroDivisionError` from `get_guess_value`, not a round count, 7, or 8. -/
theorem c7_counterexample :
    play_game "grain".toList "grain".toList pool12 (List.replicate 12 0) false
      = .error .zeroDivision := by rfl

/-! ## C3: all-green feedback characterizes the answer -/

lemma greenPass_self (a : List Char) (tc : Char → Int) :
    (greenPass (a.zip a) tc).1 = List.replicate a.length '=' := by
  induction a generalizing tc with
  | nil => rfl
  | cons x xs ih =>
    rw [show (x :: xs).zip (x :: xs) = (x, x) :: xs.zip xs from rfl]
    simp only [greenPass, if_pos rfl]
    rw [List.length_cons, List.replicate_succ]
    exact congrArg _ (ih _)

lemma yellowPass_replicate (g : List Char) (n : Nat) (tc : Char → Int) :
    yellowPass (g.zip (List.replicate n '=')) tc
      = List.replicate (min g.length n) '=' := by
  induction g generalizing n tc with
  | nil => simp [yellowPass]
  | cons x xs ih =>
    cases n with
    | zero => simp [yellowPass]
    | succ m =>
      rw [List.replicate_succ, List.zip_cons_cons]
      simp only [yellowPass, if_pos rfl]
      rw [ih]
      simp [List.replicate_succ, Nat.succ_min_succ]

lemma yellowPass_all_green (l : List (Char × Char)) (tc : Char → Int)
    (h : ∀ x ∈ yellowPass l tc, x = '=') : ∀ p ∈ l, p.2 = '=' := by
  induction l generalizing tc with
  | nil => intro p hp; cases hp
  | cons q rest ih =>
    obtain ⟨g0, r0⟩ := q
    intro p hp
    by_cases hr : r0 = '='
    · subst hr
      simp only [yellowPass, if_pos rfl] at h
      rcases List.mem_cons.mp hp with rfl | hp
      · rfl
      · exact ih tc (fun x hx => h x (List.mem_cons_of_mem _ hx)) p hp
    · exfalso
      simp only [yellowPass, if_neg hr] at h
      by_cases htc : 0 < tc g0
      · have := h '+' (by simp [htc])
        simp at this
      · have := h '-' (by simp [htc])
        simp at this

lemma greenPass_all_green : ∀ (g a : List Char) (tc : Char → Int),
    g.length = a.length →
    (∀ p ∈ g.zip (greenPass (g.zip a) tc).1, p.2 = '=') → g = a := by
  intro g
  induction g with
  | nil =>
    intro a tc hlen _
    cases a with
    | nil => rfl
    | cons y ys => simp at hlen
  | cons x xs ih =>
    intro a tc hlen hall
    cases a with
    | nil => simp at hlen
    | cons y ys =>
      by_cases hxy : x = y
      · subst hxy
        rw [List.zip_cons_cons] at hall
        simp only [greenPass, if_pos rfl, List.zip_cons_cons] at hall
        have := ih ys (subOne tc x) (by simpa using hlen)
          (fun p hp => hall p (List.mem_cons_of_mem _ hp))
        rw [this]
      · exfalso
        rw [List.zip_cons_cons] at hall
        simp only [greenPass, if_neg hxy, List.zip_cons_cons] at hall
        have := hall (x, '-') (List.mem_cons_self _ _)
        simp at this

/-- C3 (confirmed): for five-letter words, `make_guess(g, a)` is the all-green
pattern `"====="` exactly when the guess equals the answer. -/
theorem c3_all_green_iff_eq (g a : List Char) (hg : g.length = 5)
    (ha : a.length = 5) : make_guess g a = allGreen ↔ g = a := by
  constructor
  · intro h
    have hall : ∀ x ∈ make_guess g a, x = '=' := by
      rw [h]
      intro x hx
      rw [show allGreen = List.replicate 5 '=' from rfl] at hx
      exact List.eq_of_mem_replicate hx
    simp only [make_guess] at hall
    have h2 := yellowPass_all_green _ _ hall
    exact greenPass_all_green g a _ (hg.trans ha.symm) h2
  · intro h
    subst h
    rw [make_guess]
    simp only [greenPass_self]
    rw [yellowPass_replicate]
    rw [hg]
    decide

/-- Witness for `c3_all_green_iff_eq` at a concrete input from the test
suite. -/
theorem c3_witness :
    ("abbey".toList.length = 5) ∧ (make_guess "abbey".toList "abbey".toList = allGreen ↔
      "abbey".toList = "abbey".toList) :=
  ⟨by decide, c3_all_green_iff_eq "abbey".toList "abbey".toList (by decide) (by decide)⟩

/-! ## C2: ranking determinism and sortedness -/

lemma strLe_total : ∀ s t : List Char, (strLe s t || strLe t s) = true := by
  intro s
  induction s with
  | nil => intro t; simp [strLe]
  | cons x xs ih =>
    intro t
    cases t with
    | nil => simp [strLe]
    | cons y ys =>
      by_cases hxy : x = y
      · subst hxy
        simpa [strLe] using ih ys
      · rcases lt_or_gt_of_ne hxy with h | h
        · simp [strLe, hxy, h]
        · simp [strLe, hxy, Ne.symm hxy, h, not_lt_of_gt h]

lemma strLe_trans : ∀ s t u : List Char,
    strLe s t = true → strLe t u = true → strLe s u = true := by
  intro s
  induction s with
  | nil => intro t u _ _; simp [strLe]
  | cons x xs ih =>
    intro t u hst htu
    cases t with
    | nil => simp [strLe] at hst
    | cons y ys =>
      cases u with
      | nil => simp [strLe] at htu
      | cons z zs =>
        by_cases hxy : x = y
        · subst hxy
          by_cases hyz : x = z
          · subst hyz
            simp only [strLe, if_pos rfl] at hst htu ⊢
            exact ih ys zs hst htu
          · simp only [strLe, if_pos rfl] at hst
            simpa [strLe, hyz] using htu
        · by_cases hyz : y = z
          · subst hyz
            simpa [strLe, hxy] using hst
          · simp only [strLe, if_neg hxy] at hst
            simp only [strLe, if_neg hyz] at htu
            have hxz : x < z := lt_trans (of_decide_eq_true hst) (of_decide_eq_true htu)
            simp [strLe, ne_of_lt hxz, hxz]

lemma pairLe_total : ∀ p q : Option ℚ × List Char, (pairLe p q || pairLe q p) = true := by
  intro p q
  obtain ⟨pv, ps⟩ := p
  obtain ⟨qv, qs⟩ := q
  simp only [pairLe]
  by_cases h : pv = qv
  · subst h
    rw [if_pos rfl, if_pos rfl]
    exact strLe_total ps qs
  · rw [if_neg h, if_neg (Ne.symm h)]
    rcases pv with _ | a
    · simp
    · rcases qv with _ | b
      · simp
      · have hab : a ≠ b := by
          intro hh
          exact h (by rw [hh])
        rcases lt_or_gt_of_ne hab with hlt | hlt
        · simp [hlt]
        · simp [hlt, not_lt_of_gt hlt]

lemma pairLe_trans : ∀ p q r : Option ℚ × List Char,
    pairLe p q = true → pairLe q r = true → pairLe p r = true := by
  intro p q r hpq hqr
  obtain ⟨pv, ps⟩ := p
  obtain ⟨qv, qs⟩ := q
  obtain ⟨rv, rs⟩ := r
  simp only [pairLe] at hpq hqr ⊢
  by_cases h1 : pv = qv
  · subst h1
    by_cases h2 : pv = rv
    · subst h2
      rw [if_pos rfl] at hpq hqr ⊢
      exact strLe_trans ps qs rs hpq hqr
    · rw [if_neg h2] at hqr ⊢
      exact hqr
  · by_cases h2 : qv = rv
    · subst h2
      rw [if_neg h1] at hpq ⊢
      exact hpq
    · rw [if_neg h1] at hpq
      rw [if_neg h2] at hqr
      rcases pv with _ | a
      · rcases rv with _ | c
        · rcases qv with _ | b
          · exact absurd rfl h1
          · simp at hqr
        · rw [if_neg (by simp)]
      · rcases qv with _ | b
        · simp at hpq
        · rcases rv with _ | c
          · simp at hqr
          · have hab : a < b := by
              have := hpq
              simpa using this
            have hbc : b < c := by
              have := hqr
              simpa using this
            have hac : a < c := lt_trans hab hbc
            rw [if_neg (by simp [ne_of_lt hac])]
            simp [hac]

/-- The single-threaded `values.append` loop computes exactly the
order-preserving map that the worker pool performs when its chunk size is
positive. -/
lemma seqGuessValues_eq_poolWorkerMap (gs answers : List (List Char))
    (w : Option (List ℚ)) (wi : Option WordleInformation) :
    seqGuessValues gs answers w wi = poolWorkerMap answers w wi gs := by
  have key : ∀ (gs : List (List Char)) (acc : List (Option ℚ)),
      gs.foldlM (fun acc g => (get_guess_value g answers w wi).map fun v => acc ++ [some v]) acc
        = (poolWorkerMap answers w wi gs).map fun vs => acc ++ vs := by
    intro gs
    induction gs with
    | nil => intro acc; simp [List.foldlM, poolWorkerMap, Except.map, pure, Except.pure]
    | cons g rest ih =>
      intro acc
      cases h : get_guess_value g answers w wi with
      | error e =>
        rw [List.foldlM_cons, poolWorkerMap, h]
        simp [Except.map, Except.bind, bind]
      | ok v =>
        rw [List.foldlM_cons, poolWorkerMap, h]
        simp only [ih]
        cases hr : poolWorkerMap answers w wi rest with
        | error e => simp [hr, Except.map, Except.bind, bind]
        | ok vs => simp [hr, Except.map, Except.bind, bind]
  have := key gs []
  simp only [List.append_nil, List.nil_append] at this
  rw [seqGuessValues, this]
  cases hp : poolWorkerMap answers w wi gs with
  | error e => simp [Except.map]
  | ok vs => simp [Except.map]

unseal Rat.add Rat.mul Rat.inv in
/-- C2 counterexample: over the two-guess pool `["grain", "grown"]` the
source passes `chunksize = 2 // 12 = 0` to `pool.map`, which returns
`[None, None]` without invoking a worker, so `threads = 4` yields
`(None, guess)` pairs sorted by guess while `threads = 1` computes the true
values — the two rankings differ. -/
theorem c2_counterexample :
    rank_guesses ["grain".toList, "grown".toList]
        ["grain".toList, "grown".toList, "stews".toList, "weeds".toList] none none 4
      = .ok [(none, "grain".toList), (none, "grown".toList)] ∧
    rank_guesses ["grain".toList, "grown".toList]
        ["grain".toList, "grown".toList, "stews".toList, "weeds".toList] none none 1
      ≠ rank_guesses ["grain".toList, "grown".toList]
        ["grain".toList, "grown".toList, "stews".toList, "weeds".toList] none none 4 := by
  have h4 : rank_guesses ["grain".toList, "grown".toList]
      ["grain".toList, "grown".toList, "stews".toList, "weeds".toList] none none 4
      = .ok [(none, "grain".toList), (none, "grown".toList)] := by
    rw [rank_guesses, if_neg (by decide)]
    rw [show poolMapValues
        ["grain".toList, "grown".toList, "stews".toList, "weeds".toList] none none
        ["grain".toList, "grown".toList] = .ok [none, none] from rfl]
    simp only [Except.map]
    rw [show (([none, none] : List (Option ℚ)).zip ["grain".toList, "grown".toList])
        = [((none : Option ℚ), "grain".toList), (none, "grown".toList)] from rfl]
    rw [List.mergeSort_of_sorted (by decide)]
  refine ⟨h4, ?_⟩
  intro hEq
  have h1 : rank_guesses ["grain".toList, "grown".toList]
      ["grain".toList, "grown".toList, "stews".toList, "weeds".toList] none none 1
      = .ok (([(some ((5 : ℚ)/4), "grain".toList),
          (some ((3 : ℚ)/4), "grown".toList)]).mergeSort pairLe) := by
    rw [rank_guesses, if_pos rfl]
    rw [show seqGuessValues ["grain".toList, "grown".toList]
        ["grain".toList, "grown".toList, "stews".toList, "weeds".toList] none none
        = .ok [some ((5 : ℚ)/4), some ((3 : ℚ)/4)] from rfl]
    simp only [Except.map]
    rfl
  rw [h1, h4] at hEq
  have hmem : ((none : Option ℚ), "grain".toList)
      ∈ ([(some ((5 : ℚ)/4), "grain".toList),
          (some ((3 : ℚ)/4), "grown".toList)]).mergeSort pairLe := by
    rw [Except.ok.inj hEq]
    exact List.mem_cons_self _ _
  have := (List.mergeSort_perm _ pairLe).mem_iff.mp hmem
  simp at this

/-- C2 (corrected): for guess pools of at least 12 guesses — so that the
source's `chunksize = len // 12` is positive and the pool actually maps the
worker — ranking with `threads = 1` returns exactly the ranking of any
`threads > 1`, and any returned ranking is sorted ascending by the Python
tuple order (value, ties by lexicographic guess order).  For smaller pools
the pool path returns `(None, guess)` pairs without running a worker,
cf. the counterexample. -/
theorem c2_rank_deterministic (gp pa : List (List Char)) (w : Option (List ℚ))
    (wi : Option WordleInformation) (t : Nat) (ht : 1 < t)
    (hlen : 12 ≤ gp.length) :
    rank_guesses gp pa w wi 1 = rank_guesses gp pa w wi t ∧
    ∀ l, rank_guesses gp pa w wi t = .ok l →
      List.Pairwise (fun p q => pairLe p q = true) l := by
  have hne : t ≠ 1 := Nat.ne_of_gt ht
  have hch : ¬ gp.length / 12 = 0 := by omega
  constructor
  · rw [rank_guesses, rank_guesses, if_pos rfl, if_neg hne,
      seqGuessValues_eq_poolWorkerMap, poolMapValues, if_neg hch]
  · intro l hl
    rw [rank_guesses, if_neg hne] at hl
    cases h : poolMapValues pa w wi gp with
    | error e => rw [h] at hl; cases hl
    | ok values =>
      rw [h] at hl
      simp only [Except.map] at hl
      cases hl
      exact List.sorted_mergeSort pairLe_trans pairLe_total (values.zip gp)

/-- Witness for `c2_rank_deterministic` at the twelve-guess pool and
`threads = 4`. -/
theorem c2_witness :
    ((1 : Nat) < 4 ∧ 12 ≤ pool12.length) ∧
    (rank_guesses pool12 ["grain".toList, "grown".toList] none none 1
      = rank_guesses pool12 ["grain".toList, "grown".toList] none none 4 ∧
     ∀ l, rank_guesses pool12 ["grain".toList, "grown".toList] none none 4 = .ok l →
      List.Pairwise (fun p q => pairLe p q = true) l) :=
  ⟨⟨by decide, by decide⟩,
   c2_rank_deterministic pool12 ["grain".toList, "grown".toList] none none 4
     (by decide) (by decide)⟩

/-! ## C7: play_game outcome characterization -/

lemma playLoop_ok_bounds (answer : List Char) (pool : List (List Char)) (hard : Bool) :
    ∀ (fuel : Nat) (wi : WordleInformation) (guess : List Char)
      (sols : List (List Char)) (weights : List ℚ) (count r : Nat),
      playLoop answer pool hard fuel wi guess sols weights count = .ok r →
      r = 7 ∨ (count + 1 ≤ r ∧ r ≤ count + fuel) := by
  intro fuel
  induction fuel with
  | zero =>
    intro wi guess sols weights count r h
    rw [playLoop] at h
    simp only [Except.ok.injEq] at h
    exact Or.inl h.symm
  | succ f ih =>
    intro wi guess sols weights count r h
    rw [playLoop] at h
    cases hd : derive (some wi) (some (guess, make_guess guess answer)) with
    | none => rw [hd] at h; exact absurd h (by simp)
    | some wi' =>
      rw [hd] at h
      dsimp only at h
      cases hr : rank_guesses pool
          (((sols.zip weights).filter (fun p => wi'.is_valid_word p.1)).map Prod.fst)
          (some (((sols.zip weights).filter (fun p => wi'.is_valid_word p.1)).map Prod.snd))
          (some wi') 4 with
      | error e => rw [hr] at h; exact absurd h (by simp)
      | ok ranked =>
        rw [hr] at h
        dsimp only at h
        repeat' split at h
        all_goals first
          | (simp only [Except.ok.injEq] at h; omega)
          | (have hb := ih _ _ _ _ _ _ h; omega)

/-- C7 (corrected): whenever `play_game` returns a value (rather than raising
an uncaught exception, cf. the zero-weight counterexample), that value `r`
satisfies `1 ≤ r ≤ 8`, and `r = 8` exactly when the answer is not in the
permitted word list (in which case `play_game` returns before playing any
round). -/
theorem c7_play_game_outcomes (answer initial_guess : List Char)
    (possible_words : List (List Char)) (weights : List ℚ) (hard : Bool) (r : Nat)
    (h : play_game answer initial_guess possible_words weights hard = .ok r) :
    1 ≤ r ∧ r ≤ 8 ∧ (r = 8 ↔ answer ∉ possible_words) := by
  rw [play_game] at h
  by_cases hm : answer ∈ possible_words
  · rw [if_pos hm] at h
    rcases playLoop_ok_bounds answer possible_words hard 6 emptyWI initial_guess
      possible_words weights 0 r h with h7 | ⟨h1, h2⟩
    · subst h7
      refine ⟨by omega, by omega, ?_, fun hh => absurd hm hh⟩
      intro hh
      exact absurd hh (by omega)
    · refine ⟨by omega, by omega, ?_, fun hh => absurd hm hh⟩
      intro hh
      exact absurd hh (by omega)
  · rw [if_neg hm] at h
    simp only [Except.ok.injEq] at h
    subst h
    exact ⟨by omega, by omega, by simp [hm]⟩

/-- Witness for `c7_play_game_outcomes`: the answer `"zzzzz"` is missing from
the word list `["grain"]`, so the game returns 8 immediately. -/
theorem c7_witness :
    play_game "zzzzz".toList "grain".toList ["grain".toList] [1] false = .ok 8 ∧
    (1 ≤ 8 ∧ 8 ≤ 8 ∧ ((8 : Nat) = 8 ↔ "zzzzz".toList ∉ ["grain".toList])) :=
  ⟨by rfl, c7_play_game_outcomes "zzzzz".toList "grain".toList ["grain".toList] [1] false 8 (by rfl)⟩

/-! ## C5: empty candidate set mid-game -/

lemma get_guess_value_nil_nil (g : List Char) (wi : Option WordleInformation) :
    get_guess_value g [] (some []) wi = .error .zeroDivision := rfl

lemma rank_nil_candidates (pool : List (List Char)) (wi : WordleInformation)
    (hpool : 12 ≤ pool.length) :
    rank_guesses pool [] (some []) (some wi) 4 = .error .zeroDivision := by
  cases pool with
  | nil => simp at hpool
  | cons g rest =>
    rw [rank_guesses, if_neg (by decide), poolMapValues, if_neg (by omega),
      poolWorkerMap, get_guess_value_nil_nil]
    rfl

/-- C5 (corrected): a round entered with an empty candidate set (and hence
an empty filtered weights list) over a guess pool of at least 12 words — so
that `pool.map` actually invokes its workers — does not report a distinct
"no consistent candidates" outcome: ranking calls `get_guess_value` over
the empty candidate set, whose weight normalization raises an uncaught
`ZeroDivisionError`.  (Over a smaller pool the workers never run and the
game continues on `(None, guess)` rankings — in the exhibited game even
returning the Won count; the defensive `len(ranked_guesses) == 0` branch,
which would return the Lost sentinel 7, requires an empty guess pool.) -/
theorem c5_amended (answer : List Char) (pool : List (List Char)) (hard : Bool)
    (fuel count : Nat) (wi : WordleInformation) (guess : List Char)
    (hpool : 12 ≤ pool.length)
    (hd : (derive (some wi) (some (guess, make_guess guess answer))).isSome) :
    playLoop answer pool hard (fuel + 1) wi guess [] [] count
      = .error .zeroDivision := by
  obtain ⟨wi', hd'⟩ := Option.isSome_iff_exists.mp hd
  rw [playLoop, hd']
  dsimp only
  simp only [List.zip_nil_left, List.filter_nil, List.map_nil]
  rw [rank_nil_candidates pool wi' hpool]

/-- Witness for `c5_amended`: a concrete round with an empty candidate set
over the twelve-word pool. -/
theorem c5_witness :
    (12 ≤ pool12.length ∧
     (derive (some emptyWI) (some ("grain".toList,
        make_guess "grain".toList "grain".toList))).isSome) ∧
    playLoop "grain".toList pool12 false 6 emptyWI "grain".toList [] [] 0
      = .error .zeroDivision :=
  ⟨⟨by decide, by decide⟩,
    c5_amended "grain".toList pool12 false 5 0 emptyWI "grain".toList
      (by decide) (by decide)⟩

/-! ## C9 part A: association-list lemmas -/

lemma alSet_cons_eq (rest : AssocNat) (e : Char) (w : Nat) (v : Nat) :
    alSet ((e, w) :: rest) e v = (e, v) :: rest := by
  rw [alSet, if_pos rfl]

lemma alSet_cons_lt (rest : AssocNat) (e : Char) (w : Nat) (c : Char) (v : Nat)
    (h1 : c ≠ e) (h2 : c < e) :
    alSet ((e, w) :: rest) c v = (c, v) :: (e, w) :: rest := by
  rw [alSet, if_neg h1, if_pos h2]

lemma alSet_cons_gt (rest : AssocNat) (e : Char) (w : Nat) (c : Char) (v : Nat)
    (h1 : c ≠ e) (h2 : ¬ c < e) :
    alSet ((e, w) :: rest) c v = (e, w) :: alSet rest c v := by
  rw [alSet, if_neg h1, if_neg h2]

lemma alGet_alSet_self (l : AssocNat) (c : Char) (v : Nat) :
    alGet (alSet l c v) c = some v := by
  induction l with
  | nil => simp [alSet, alGet]
  | cons q rest ih =>
    obtain ⟨e, w⟩ := q
    by_cases hce : c = e
    · subst hce
      rw [alSet_cons_eq, alGet, if_pos rfl]
    · by_cases hlt : c < e
      · rw [alSet_cons_lt rest e w c v hce hlt, alGet, if_pos rfl]
      · rw [alSet_cons_gt rest e w c v hce hlt, alGet, if_neg hce]
        exact ih

lemma alGet_alSet_ne (l : AssocNat) (c d : Char) (v : Nat) (h : d ≠ c) :
    alGet (alSet l c v) d = alGet l d := by
  induction l with
  | nil => simp [alSet, alGet, h]
  | cons q rest ih =>
    obtain ⟨e, w⟩ := q
    by_cases hce : c = e
    · subst hce
      rw [alSet_cons_eq, alGet, if_neg h, alGet, if_neg h]
    · by_cases hlt : c < e
      · rw [alSet_cons_lt rest e w c v hce hlt, alGet, if_neg h]
      · rw [alSet_cons_gt rest e w c v hce hlt, alGet, alGet]
        by_cases hde : d = e
        · rw [if_pos hde, if_pos hde]
        · rw [if_neg hde, if_neg hde]
          exact ih

lemma mem_alSet (l : AssocNat) (c : Char) (v : Nat) (p : Char × Nat)
    (h : p ∈ alSet l c v) : p ∈ l ∨ p = (c, v) := by
  induction l with
  | nil => simpa [alSet] using h
  | cons q rest ih =>
    obtain ⟨e, w⟩ := q
    by_cases hce : c = e
    · subst hce
      rw [alSet_cons_eq] at h
      rcases List.mem_cons.mp h with h1 | h1
      · exact Or.inr h1
      · exact Or.inl (List.mem_cons_of_mem _ h1)
    · by_cases hlt : c < e
      · rw [alSet_cons_lt rest e w c v hce hlt] at h
        rcases List.mem_cons.mp h with h1 | h1
        · exact Or.inr h1
        · exact Or.inl h1
      · rw [alSet_cons_gt rest e w c v hce hlt] at h
        rcases List.mem_cons.mp h with h1 | h1
        · exact Or.inl (h1 ▸ List.mem_cons_self _ _)
        · rcases ih h1 with h2 | h2
          · exact Or.inl (List.mem_cons_of_mem _ h2)
          · exact Or.inr h2

lemma alGet_mem (l : AssocNat) (c : Char) (v : Nat) (h : alGet l c = some v) :
    (c, v) ∈ l := by
  induction l with
  | nil => simp [alGet] at h
  | cons q rest ih =>
    obtain ⟨d, w⟩ := q
    by_cases hcd : c = d
    · subst hcd
      rw [alGet, if_pos rfl, Option.some.injEq] at h
      subst h
      exact List.mem_cons_self _ _
    · rw [alGet, if_neg hcd] at h
      exact List.mem_cons_of_mem _ (ih h)

/-- Keys of an association list are strictly sorted (the invariant `alSet`
maintains, mirroring Python's `sorted(dict)` view). -/
def keysSorted (l : AssocNat) : Prop := List.Pairwise (· < ·) (l.map Prod.fst)

lemma keys_alSet_subset (l : AssocNat) (c : Char) (v : Nat) (k : Char)
    (h : k ∈ (alSet l c v).map Prod.fst) : k ∈ l.map Prod.fst ∨ k = c := by
  rcases List.mem_map.mp h with ⟨p, hp, hk⟩
  subst hk
  rcases mem_alSet l c v p hp with h1 | h1
  · exact Or.inl (List.mem_map_of_mem _ h1)
  · rw [h1]
    exact Or.inr rfl

lemma keysSorted_alSet (l : AssocNat) (c : Char) (v : Nat) (h : keysSorted l) :
    keysSorted (alSet l c v) := by
  induction l with
  | nil =>
    rw [keysSorted]
    simp [alSet]
  | cons q rest ih =>
    obtain ⟨e, w⟩ := q
    rw [keysSorted, List.map_cons, List.pairwise_cons] at h
    obtain ⟨he, hrest⟩ := h
    by_cases hce : c = e
    · subst hce
      rw [alSet_cons_eq, keysSorted, List.map_cons, List.pairwise_cons]
      exact ⟨he, hrest⟩
    · by_cases hlt : c < e
      · rw [alSet_cons_lt rest e w c v hce hlt, keysSorted, List.map_cons, List.map_cons,
          List.pairwise_cons, List.pairwise_cons]
        refine ⟨?_, he, hrest⟩
        intro k hk
        rcases List.mem_cons.mp hk with rfl | hk
        · exact hlt
        · exact lt_trans hlt (he k hk)
      · have hgt : e < c := by
          rcases lt_trichotomy c e with h1 | h1 | h1
          · exact absurd h1 hlt
          · exact absurd h1 hce
          · exact h1
        rw [alSet_cons_gt rest e w c v hce hlt, keysSorted, List.map_cons, List.pairwise_cons]
        refine ⟨?_, ih hrest⟩
        intro k hk
        rcases keys_alSet_subset rest c v k hk with h1 | h1
        · exact he k h1
        · exact h1 ▸ hgt

lemma alGet_of_mem_sorted (l : AssocNat) (p : Char × Nat)
    (hs : keysSorted l) (h : p ∈ l) : alGet l p.1 = some p.2 := by
  induction l with
  | nil => cases h
  | cons q rest ih =>
    obtain ⟨e, w⟩ := q
    rw [keysSorted, List.map_cons, List.pairwise_cons] at hs
    obtain ⟨he, hrest⟩ := hs
    rcases List.mem_cons.mp h with rfl | h
    · rw [alGet, if_pos rfl]
    · have hne : p.1 ≠ e := by
        intro hh
        have := he p.1 (List.mem_map_of_mem _ h)
        rw [hh] at this
        exact lt_irrefl e this
      rw [alGet, if_neg hne]
      exact ih hrest h

lemma keysSorted_alBump (l : AssocNat) (c : Char) (h : keysSorted l) :
    keysSorted (alBump l c) := keysSorted_alSet l c _ h

lemma alGet_alBump_self (l : AssocNat) (c : Char) :
    alGet (alBump l c) c = some ((alGet l c).getD 0 + 1) := alGet_alSet_self l c _

lemma alGet_alBump_ne (l : AssocNat) (c d : Char) (h : d ≠ c) :
    alGet (alBump l c) d = alGet l d := alGet_alSet_ne l c d _ h

/-! ## C9 part B: counting the scorer's feedback -/

/-- Number of feedback pairs carrying letter `c` with a green or yellow
symbol (the quantity `__init__` tallies into `new_min[c]`). -/
def tallyPairs : List (Char × Char) → Char → Nat
  | [], _ => 0
  | p :: po, c => (if p.1 = c ∧ (p.2 = '=' ∨ p.2 = '+') then 1 else 0) + tallyPairs po c

/-- Number of feedback pairs carrying letter `c` with a green symbol. -/
def eqPairs : List (Char × Char) → Char → Nat
  | [], _ => 0
  | p :: po, c => (if p.1 = c ∧ p.2 = '=' then 1 else 0) + eqPairs po c

/-- Number of guess/answer positions where letter `c` matches exactly. -/
def greensZ : List (Char × Char) → Char → Nat
  | [], _ => 0
  | p :: po, c => (if p.1 = p.2 ∧ p.1 = c then 1 else 0) + greensZ po c

lemma greenPass_forall₂ : ∀ (l : List (Char × Char)) (tc : Char → Int),
    List.Forall₂ (fun (p : Char × Char) r => (r = '=' ↔ p.1 = p.2) ∧ (r = '=' ∨ r = '-'))
      l (greenPass l tc).1 := by
  intro l
  induction l with
  | nil => intro tc; exact List.Forall₂.nil
  | cons p rest ih =>
    intro tc
    obtain ⟨x, y⟩ := p
    by_cases hxy : x = y
    · subst hxy
      rw [greenPass, if_pos rfl]
      exact List.Forall₂.cons ⟨by simp, Or.inl rfl⟩ (ih _)
    · rw [greenPass, if_neg hxy]
      exact List.Forall₂.cons ⟨by simp [hxy], Or.inr rfl⟩ (ih _)

lemma yellowPass_forall₂ : ∀ (l : List (Char × Char)) (tc : Char → Int),
    List.Forall₂ (fun (p : Char × Char) o => o = '=' ↔ p.2 = '=')
      l (yellowPass l tc) := by
  intro l
  induction l with
  | nil => intro tc; exact List.Forall₂.nil
  | cons p rest ih =>
    intro tc
    obtain ⟨x, r⟩ := p
    by_cases hr : r = '='
    · subst hr
      rw [yellowPass, if_pos rfl]
      exact List.Forall₂.cons (by simp) (ih _)
    · rw [yellowPass, if_neg hr]
      by_cases htc : 0 < tc x
      · rw [if_pos htc]
        exact List.Forall₂.cons (by simp [hr]) (ih _)
      · rw [if_neg htc]
        exact List.Forall₂.cons (by simp [hr]) (ih _)

lemma greenPass_spec : ∀ (g a : List Char) (tc : Char → Int) (c : Char),
    g.length = a.length →
    (eqPairs (g.zip (greenPass (g.zip a) tc).1) c = greensZ (g.zip a) c ∧
     (greenPass (g.zip a) tc).2 c = tc c - greensZ (g.zip a) c ∧
     greensZ (g.zip a) c ≤ a.count c ∧
     (greenPass (g.zip a) tc).1.length = a.length) := by
  intro g
  induction g with
  | nil =>
    intro a tc c hlen
    have ha : a = [] := by
      cases a with
      | nil => rfl
      | cons y ys => simp at hlen
    subst ha
    simp [greenPass, eqPairs, greensZ, tallyPairs]
  | cons x xs ih =>
    intro a tc c hlen
    cases a with
    | nil => simp at hlen
    | cons y ys =>
      have hlen' : xs.length = ys.length := by simpa using hlen
      rw [List.zip_cons_cons]
      by_cases hxy : x = y
      · subst hxy
        rw [greenPass, if_pos rfl]
        obtain ⟨ih1, ih2, ih3, ih4⟩ := ih ys (subOne tc x) c hlen'
        refine ⟨?_, ?_, ?_, ?_⟩
        · rw [List.zip_cons_cons, eqPairs, greensZ, ih1]
          by_cases hxc : x = c <;> simp [hxc]
        · rw [greensZ, ih2]
          by_cases hxc : x = c
          · subst hxc
            simp [subOne]
            omega
          · simp [subOne, Ne.symm hxc, hxc]
        · rw [greensZ, List.count_cons]
          by_cases hxc : x = c <;> simp [hxc] <;> omega
        · simp [ih4]
      · rw [greenPass, if_neg hxy]
        obtain ⟨ih1, ih2, ih3, ih4⟩ := ih ys tc c hlen'
        refine ⟨?_, ?_, ?_, ?_⟩
        · rw [List.zip_cons_cons, eqPairs, greensZ, ih1]
          simp [hxy]
        · rw [greensZ, ih2]
          simp [hxy]
        · rw [greensZ, List.count_cons]
          rw [if_neg (fun hh => hxy hh.1)]
          split <;> omega
        · simp [ih4]

lemma yellowPass_spec : ∀ (g r1 : List Char) (tc : Char → Int) (c : Char),
    g.length = r1.length →
    (eqPairs (g.zip (yellowPass (g.zip r1) tc)) c = eqPairs (g.zip r1) c ∧
     eqPairs (g.zip r1) c ≤ tallyPairs (g.zip (yellowPass (g.zip r1) tc)) c ∧
     tallyPairs (g.zip (yellowPass (g.zip r1) tc)) c ≤ eqPairs (g.zip r1) c + (tc c).toNat ∧
     ((c, '-') ∈ g.zip (yellowPass (g.zip r1) tc) →
       (eqPairs (g.zip r1) c : Int) + tc c ≤ tallyPairs (g.zip (yellowPass (g.zip r1) tc)) c) ∧
     (yellowPass (g.zip r1) tc).length = r1.length) := by
  intro g
  induction g with
  | nil =>
    intro r1 tc c hlen
    have hr : r1 = [] := by
      cases r1 with
      | nil => rfl
      | cons z zs => simp at hlen
    subst hr
    simp [yellowPass, eqPairs, tallyPairs]
  | cons x xs ih =>
    intro r1 tc c hlen
    cases r1 with
    | nil => simp at hlen
    | cons r0 rs =>
      have hlen' : xs.length = rs.length := by simpa using hlen
      rw [List.zip_cons_cons]
      by_cases hr : r0 = '='
      · subst hr
        rw [yellowPass, if_pos rfl, List.zip_cons_cons]
        obtain ⟨ih1, ih2, ih3, ih4, ih5⟩ := ih rs tc c hlen'
        refine ⟨?_, ?_, ?_, ?_, by simpa using ih5⟩
        · rw [eqPairs, eqPairs, ih1]
        · rw [eqPairs, tallyPairs]
          by_cases hxc : x = c
          · subst hxc
            simp only [and_self, if_pos rfl]
            simp
            omega
          · simp [hxc]
            omega
        · rw [eqPairs, tallyPairs]
          by_cases hxc : x = c
          · subst hxc
            simp
            omega
          · simp [hxc]
            omega
        · intro hmem
          rcases List.mem_cons.mp hmem with heq | hmem'
          · exact absurd (congrArg Prod.snd heq) (by simp)
          · have h4 := ih4 hmem'
            rw [eqPairs, tallyPairs]
            by_cases hxc : x = c
            · subst hxc
              simp
              omega
            · simp [hxc]
              omega
      · rw [yellowPass, if_neg hr]
        by_cases htc : 0 < tc x
        · rw [if_pos htc, List.zip_cons_cons]
          obtain ⟨ih1, ih2, ih3, ih4, ih5⟩ := ih rs (subOne tc x) c hlen'
          refine ⟨?_, ?_, ?_, ?_, by simpa using ih5⟩
          · rw [eqPairs, eqPairs, ih1]
            simp [hr]
          · rw [eqPairs, tallyPairs]
            by_cases hxc : x = c
            · subst hxc
              simp [hr]
              omega
            · simp [hxc]
              omega
          · rw [eqPairs, tallyPairs]
            by_cases hxc : x = c
            · subst hxc
              have hs : subOne tc x x = tc x - 1 := by simp [subOne]
              rw [hs] at ih3
              simp [hr]
              omega
            · have hs : subOne tc x c = tc c := by simp [subOne, Ne.symm hxc]
              rw [hs] at ih3
              simp [hxc]
              omega
          · intro hmem
            rcases List.mem_cons.mp hmem with heq | hmem'
            · exact absurd (congrArg Prod.snd heq) (by simp)
            · have h4 := ih4 hmem'
              rw [eqPairs, tallyPairs]
              by_cases hxc : x = c
              · subst hxc
                have hs : subOne tc x x = tc x - 1 := by simp [subOne]
                rw [hs] at h4
                simp [hr]
                omega
              · have hs : subOne tc x c = tc c := by simp [subOne, Ne.symm hxc]
                rw [hs] at h4
                simp [hxc]
                omega
        · rw [if_neg htc, List.zip_cons_cons]
          obtain ⟨ih1, ih2, ih3, ih4, ih5⟩ := ih rs tc c hlen'
          refine ⟨?_, ?_, ?_, ?_, by simpa using ih5⟩
          · rw [eqPairs, eqPairs, ih1]
            simp [hr]
          · rw [eqPairs, tallyPairs]
            simp [hr]
            omega
          · rw [eqPairs, tallyPairs]
            simp [hr]
            omega
          · intro hmem
            rcases List.mem_cons.mp hmem with heq | hmem'
            · have hcx : c = x := congrArg Prod.fst heq
              subst hcx
              rw [eqPairs, tallyPairs]
              simp [hr]
              omega
            · have h4 := ih4 hmem'
              rw [eqPairs, tallyPairs]
              simp [hr]
              omega

lemma make_guess_tally (g a : List Char) (hlen : g.length = a.length) (c : Char) :
    tallyPairs (g.zip (make_guess g a)) c ≤ a.count c ∧
    ((c, '-') ∈ g.zip (make_guess g a) → tallyPairs (g.zip (make_guess g a)) c = a.count c) := by
  obtain ⟨g1, g2, g3, g4⟩ := greenPass_spec g a (fun d => (a.count d : Int)) c hlen
  set r1 := (greenPass (g.zip a) (fun d => (a.count d : Int))).1 with hr1
  set tc1 := (greenPass (g.zip a) (fun d => (a.count d : Int))).2 with htc1
  have hlen1 : g.length = r1.length := by rw [g4, hlen]
  obtain ⟨y1, y2, y3, y4, y5⟩ := yellowPass_spec g r1 tc1 c hlen1
  have hmk : make_guess g a = yellowPass (g.zip r1) tc1 := rfl
  rw [hmk]
  constructor
  · have y3' := y3
    rw [g1, g2] at y3'
    omega
  · intro hm
    have y4' := y4 hm
    have y3' := y3
    rw [g1] at y3' y4'
    rw [g2] at y3' y4'
    omega

lemma make_guess_length (g a : List Char) (hlen : g.length = a.length) :
    (make_guess g a).length = g.length := by
  obtain ⟨g1, g2, g3, g4⟩ := greenPass_spec g a (fun d => (a.count d : Int)) 'a' hlen
  set r1 := (greenPass (g.zip a) (fun d => (a.count d : Int))).1 with hr1
  set tc1 := (greenPass (g.zip a) (fun d => (a.count d : Int))).2 with htc1
  have hlen1 : g.length = r1.length := by rw [g4, hlen]
  obtain ⟨y1, y2, y3, y4, y5⟩ := yellowPass_spec g r1 tc1 'a' hlen1
  have hmk : make_guess g a = yellowPass (g.zip r1) tc1 := rfl
  rw [hmk, y5, ← hlen1]

lemma make_guess_rel (g a : List Char) (pl : List (List Char))
    (hlen : g.length = a.length)
    (hmem : List.Forall₂ (fun x s => x ∈ s) a pl) :
    List.Forall₂ (fun (p : Char × Char) (q : Char × List Char) =>
      (p.2 = '=' → p.1 = q.1) ∧ (p.2 = '+' → p.1 ≠ q.1) ∧ q.1 ∈ q.2)
      (g.zip (make_guess g a)) (a.zip pl) := by
  have F1 := greenPass_forall₂ (g.zip a) (fun d => (a.count d : Int))
  set r1 := (greenPass (g.zip a) (fun d => (a.count d : Int))).1 with hr1
  set tc1 := (greenPass (g.zip a) (fun d => (a.count d : Int))).2 with htc1
  have F2 := yellowPass_forall₂ (g.zip r1) tc1
  have hmk : make_guess g a = yellowPass (g.zip r1) tc1 := rfl
  rw [hmk]
  set out := yellowPass (g.zip r1) tc1 with hout
  have hza : (g.zip a).length = g.length := by
    rw [List.length_zip, hlen, min_self]
  have hr1len : r1.length = g.length := by
    rw [← F1.length_eq, hza]
  have hzr : (g.zip r1).length = g.length := by
    rw [List.length_zip, hr1len, min_self]
  have houtlen : out.length = g.length := by
    rw [← F2.length_eq, hzr]
  have hpllen : pl.length = a.length := hmem.length_eq.symm
  have hzout : (g.zip out).length = g.length := by
    rw [List.length_zip, houtlen, min_self]
  have hzap : (a.zip pl).length = a.length := by
    rw [List.length_zip, hpllen, min_self]
  rw [List.forall₂_iff_get]
  refine ⟨by rw [hzout, hzap, hlen], ?_⟩
  intro i h1 h2
  have hig : i < g.length := by rwa [hzout] at h1
  have hia : i < a.length := by rwa [hzap] at h2
  have hipl : i < pl.length := by rwa [hpllen]
  have hir1 : i < r1.length := by rwa [hr1len]
  have hiout : i < out.length := by rwa [houtlen]
  have hiza : i < (g.zip a).length := by rwa [hza]
  have hizr : i < (g.zip r1).length := by rwa [hzr]
  have e1 := (List.forall₂_iff_get.mp F1).2 i hiza hir1
  have e2 := (List.forall₂_iff_get.mp F2).2 i hizr hiout
  have e3 := (List.forall₂_iff_get.mp hmem).2 i hia hipl
  simp only [List.get_eq_getElem, List.getElem_zip] at e1 e2 e3 ⊢
  refine ⟨?_, ?_, e3⟩
  · intro hout_eq
    have hr1eq : r1[i] = '=' := e2.mp hout_eq
    exact e1.1.mp hr1eq
  · intro hout_plus
    have hr1ne : ¬ r1[i] = '=' := by
      intro hh
      have := e2.mpr hh
      simp [hout_plus] at this
    intro hga
    exact hr1ne (e1.1.mpr hga)

/-! ## C9 part C: the constructor passes preserve the answer's validity -/

lemma processGY_length : ∀ (po : List (Char × Char)) (pl : List (List Char)) (nm : AssocNat),
    (processGY po pl nm).1.length = pl.length := by
  intro po
  induction po with
  | nil => intro pl nm; rfl
  | cons p rest ih =>
    intro pl nm
    obtain ⟨letter, symbol⟩ := p
    cases pl with
    | nil => rfl
    | cons s pl' =>
      by_cases h1 : symbol = '='
      · rw [processGY, if_pos h1]
        dsimp only
        rw [List.length_cons, List.length_cons, ih]
      · by_cases h2 : symbol = '+'
        · rw [processGY, if_neg h1, if_pos h2]
          dsimp only
          rw [List.length_cons, List.length_cons, ih]
        · rw [processGY, if_neg h1, if_neg h2]
          dsimp only
          rw [List.length_cons, List.length_cons, ih]

lemma processGY_mem : ∀ (po : List (Char × Char)) (a : List Char) (pl : List (List Char))
    (nm : AssocNat),
    a.length = pl.length →
    List.Forall₂ (fun (p : Char × Char) (q : Char × List Char) =>
      (p.2 = '=' → p.1 = q.1) ∧ (p.2 = '+' → p.1 ≠ q.1) ∧ q.1 ∈ q.2) po (a.zip pl) →
    List.Forall₂ (fun x s => x ∈ s) a (processGY po pl nm).1 := by
  intro po
  induction po with
  | nil =>
    intro a pl nm hlen hrel
    have hz : a.zip pl = [] := List.forall₂_nil_left_iff.mp hrel
    have ha : a = [] := by
      cases a with
      | nil => rfl
      | cons a0 a' =>
        cases pl with
        | nil => simp at hlen
        | cons s pl' => simp [List.zip_cons_cons] at hz
    subst ha
    have hp : pl = [] := by
      cases pl with
      | nil => rfl
      | cons s pl' => simp at hlen
    subst hp
    exact List.Forall₂.nil
  | cons p po' ih =>
    intro a pl nm hlen hrel
    cases a with
    | nil =>
      cases pl with
      | nil => exact absurd (List.forall₂_nil_right_iff.mp hrel) (by simp)
      | cons s pl' => simp at hlen
    | cons a0 a' =>
      cases pl with
      | nil => simp at hlen
      | cons s pl' =>
        rw [List.zip_cons_cons] at hrel
        rcases List.forall₂_cons.mp hrel with ⟨⟨hgreen, hyellow, hmem0⟩, htail⟩
        obtain ⟨letter, symbol⟩ := p
        have hlen' : a'.length = pl'.length := by simpa using hlen
        by_cases h1 : symbol = '='
        · rw [processGY, if_pos h1]
          dsimp only
          refine List.Forall₂.cons ?_ (ih a' pl' (alBump nm letter) hlen' htail)
          have heq : letter = a0 := hgreen h1
          rw [heq]
          exact List.mem_singleton_self a0
        · by_cases h2 : symbol = '+'
          · rw [processGY, if_neg h1, if_pos h2]
            dsimp only
            refine List.Forall₂.cons ?_ (ih a' pl' (alBump nm letter) hlen' htail)
            rw [List.mem_filter]
            refine ⟨hmem0, ?_⟩
            have hne : a0 ≠ letter := Ne.symm (hyellow h2)
            simp [hne]
          · rw [processGY, if_neg h1, if_neg h2]
            dsimp only
            exact List.Forall₂.cons hmem0 (ih a' pl' nm hlen' htail)

lemma processGY_tally : ∀ (po : List (Char × Char)) (pl : List (List Char)) (nm : AssocNat)
    (c : Char), po.length ≤ pl.length →
    (alGet (processGY po pl nm).2 c).getD 0 = (alGet nm c).getD 0 + tallyPairs po c := by
  intro po
  induction po with
  | nil =>
    intro pl nm c _
    rw [tallyPairs]
    rfl
  | cons p po' ih =>
    intro pl nm c hlen
    obtain ⟨letter, symbol⟩ := p
    cases pl with
    | nil => simp at hlen
    | cons s pl' =>
      have hlen' : po'.length ≤ pl'.length := by simpa using hlen
      by_cases h1 : symbol = '='
      · rw [processGY, if_pos h1]
        dsimp only
        rw [ih pl' _ c hlen', tallyPairs]
        by_cases hlc : letter = c
        · subst hlc
          rw [alGet_alBump_self]
          simp [h1]
          omega
        · rw [alGet_alBump_ne nm letter c (Ne.symm hlc)]
          simp [hlc]
      · by_cases h2 : symbol = '+'
        · rw [processGY, if_neg h1, if_pos h2]
          dsimp only
          rw [ih pl' _ c hlen', tallyPairs]
          by_cases hlc : letter = c
          · subst hlc
            rw [alGet_alBump_self]
            simp [h2]
            omega
          · rw [alGet_alBump_ne nm letter c (Ne.symm hlc)]
            simp [hlc]
        · rw [processGY, if_neg h1, if_neg h2]
          dsimp only
          rw [ih pl' _ c hlen', tallyPairs]
          simp [h1, h2]

lemma processGY_sorted : ∀ (po : List (Char × Char)) (pl : List (List Char)) (nm : AssocNat),
    keysSorted nm → keysSorted (processGY po pl nm).2 := by
  intro po
  induction po with
  | nil => intro pl nm h; exact h
  | cons p po' ih =>
    intro pl nm h
    obtain ⟨letter, symbol⟩ := p
    cases pl with
    | nil => exact h
    | cons s pl' =>
      by_cases h1 : symbol = '='
      · rw [processGY, if_pos h1]
        exact ih pl' _ (keysSorted_alBump nm letter h)
      · by_cases h2 : symbol = '+'
        · rw [processGY, if_neg h1, if_pos h2]
          exact ih pl' _ (keysSorted_alBump nm letter h)
        · rw [processGY, if_neg h1, if_neg h2]
          exact ih pl' _ h

lemma forall₂_mem_filter : ∀ (a : List Char) (pl : List (List Char)) (letter : Char),
    List.Forall₂ (fun x s => x ∈ s) a pl → letter ∉ a →
    List.Forall₂ (fun x s => x ∈ s) a (pl.map fun s => s.filter fun x => x ≠ letter) := by
  intro a
  induction a with
  | nil =>
    intro pl letter hmem _
    have : pl = [] := List.forall₂_nil_left_iff.mp hmem
    subst this
    exact List.Forall₂.nil
  | cons a0 a' iha =>
    intro pl letter hmem hla
    cases pl with
    | nil => exact absurd (List.forall₂_nil_right_iff.mp hmem) (by simp)
    | cons s pl' =>
      rcases List.forall₂_cons.mp hmem with ⟨h0, hrest⟩
      rw [List.map_cons]
      refine List.Forall₂.cons ?_
        (iha pl' letter hrest (fun hh => hla (List.mem_cons_of_mem _ hh)))
      rw [List.mem_filter]
      refine ⟨h0, ?_⟩
      have hne : a0 ≠ letter := fun hh => hla (hh ▸ List.mem_cons_self _ _)
      simp [hne]

lemma processGray_length : ∀ (po : List (Char × Char)) (pl : List (List Char))
    (nmin nmax : AssocNat), (processGray po pl nmin nmax).1.length = pl.length := by
  intro po
  induction po with
  | nil => intro pl nmin nmax; rfl
  | cons p po' ih =>
    intro pl nmin nmax
    obtain ⟨letter, symbol⟩ := p
    by_cases h1 : symbol = '-'
    · rw [processGray, if_pos h1]
      dsimp only
      by_cases hv : (alGet nmin letter).getD 0 = 0
      · rw [if_pos hv, ih]
        rw [List.length_map]
      · rw [if_neg hv, ih]
    · rw [processGray, if_neg h1]
      exact ih pl nmin nmax

lemma processGray_mem : ∀ (po : List (Char × Char)) (a : List Char) (pl : List (List Char))
    (nmin nmax : AssocNat),
    (∀ c, (c, '-') ∈ po → (alGet nmin c).getD 0 = a.count c) →
    List.Forall₂ (fun x s => x ∈ s) a pl →
    List.Forall₂ (fun x s => x ∈ s) a (processGray po pl nmin nmax).1 := by
  intro po
  induction po with
  | nil => intro a pl nmin nmax _ hmem; exact hmem
  | cons p po' ih =>
    intro a pl nmin nmax hgray hmem
    obtain ⟨letter, symbol⟩ := p
    have hgray' : ∀ c, (c, '-') ∈ po' → (alGet nmin c).getD 0 = a.count c :=
      fun c hc => hgray c (List.mem_cons_of_mem _ hc)
    by_cases h1 : symbol = '-'
    · subst h1
      rw [processGray, if_pos rfl]
      dsimp only
      by_cases hv : (alGet nmin letter).getD 0 = 0
      · rw [if_pos hv]
        refine ih a _ nmin _ hgray' ?_
        have hcount : a.count letter = 0 := by
          rw [← hgray letter (List.mem_cons_self _ _), hv]
        exact forall₂_mem_filter a pl letter hmem (List.count_eq_zero.mp hcount)
      · rw [if_neg hv]
        exact ih a pl nmin _ hgray' hmem
    · rw [processGray, if_neg h1]
      exact ih a pl nmin nmax hgray' hmem

lemma processGray_maxEntries : ∀ (po : List (Char × Char)) (pl : List (List Char))
    (nmin nmax : AssocNat) (p : Char × Nat),
    p ∈ (processGray po pl nmin nmax).2 →
    p ∈ nmax ∨ ((p.1, '-') ∈ po ∧ p.2 = (alGet nmin p.1).getD 0) := by
  intro po
  induction po with
  | nil => intro pl nmin nmax p h; exact Or.inl h
  | cons q po' ih =>
    intro pl nmin nmax p h
    obtain ⟨letter, symbol⟩ := q
    by_cases h1 : symbol = '-'
    · subst h1
      rw [processGray, if_pos rfl] at h
      dsimp only at h
      rcases ih _ _ _ p h with h2 | ⟨h2, h3⟩
      · rcases mem_alSet nmax letter _ p h2 with h3 | h3
        · exact Or.inl h3
        · refine Or.inr ⟨?_, ?_⟩
          · rw [h3]
            exact List.mem_cons_self _ _
          · rw [h3]
      · exact Or.inr ⟨List.mem_cons_of_mem _ h2, h3⟩
    · rw [processGray, if_neg h1] at h
      rcases ih _ _ _ p h with h2 | ⟨h2, h3⟩
      · exact Or.inl h2
      · exact Or.inr ⟨List.mem_cons_of_mem _ h2, h3⟩

lemma mergeMins_bound (a : List Char) : ∀ (nm minl : AssocNat),
    (∀ p ∈ minl, p.2 ≤ a.count p.1) →
    (∀ p ∈ nm, p.2 ≤ a.count p.1) →
    ∀ p ∈ mergeMins minl nm, p.2 ≤ a.count p.1 := by
  intro nm
  induction nm with
  | nil => intro minl hminl _ p hp; exact hminl p hp
  | cons q rest ih =>
    intro minl hminl hnm p hp
    obtain ⟨c, v⟩ := q
    rw [mergeMins] at hp
    refine ih _ ?_ (fun r hr => hnm r (List.mem_cons_of_mem _ hr)) p hp
    intro r hr
    rcases mem_alSet minl c _ r hr with h1 | h1
    · exact hminl r h1
    · rw [h1]
      dsimp only
      have hv : v ≤ a.count c := hnm (c, v) (List.mem_cons_self _ _)
      rcases hg : alGet minl c with _ | w
      · simpa [hg] using hv
      · have hw : w ≤ a.count c := hminl (c, w) (alGet_mem minl c w hg)
        simp only [Option.getD_some]
        omega

lemma updateMax_bound (a : List Char) : ∀ (nmax maxl : AssocNat),
    (∀ p ∈ maxl, a.count p.1 ≤ p.2) →
    (∀ p ∈ nmax, a.count p.1 ≤ p.2) →
    ∀ p ∈ updateMax maxl nmax, a.count p.1 ≤ p.2 := by
  intro nmax
  induction nmax with
  | nil => intro maxl hmaxl _ p hp; exact hmaxl p hp
  | cons q rest ih =>
    intro maxl hmaxl hnm p hp
    obtain ⟨c, v⟩ := q
    rw [updateMax] at hp
    refine ih _ ?_ (fun r hr => hnm r (List.mem_cons_of_mem _ hr)) p hp
    intro r hr
    rcases mem_alSet maxl c v r hr with h1 | h1
    · exact hmaxl r h1
    · rw [h1]
      exact hnm (c, v) (List.mem_cons_self _ _)

lemma count_filter_singleton : ∀ (a : List Char) (pl : List (List Char)) (letter : Char),
    List.Forall₂ (fun x s => x ∈ s) a pl →
    (pl.filter fun x => x = [letter]).length ≤ a.count letter := by
  intro a
  induction a with
  | nil =>
    intro pl letter hmem
    have : pl = [] := List.forall₂_nil_left_iff.mp hmem
    subst this
    simp
  | cons a0 a' iha =>
    intro pl letter hmem
    cases pl with
    | nil => exact absurd (List.forall₂_nil_right_iff.mp hmem) (by simp)
    | cons s pl' =>
      rcases List.forall₂_cons.mp hmem with ⟨h0, hrest⟩
      rw [List.filter_cons, List.count_cons]
      by_cases hs : s = [letter]
      · have ha0 : a0 = letter := by
          rw [hs] at h0
          simpa using h0
        simp only [hs, ha0]
        simp
        have := iha pl' letter hrest
        omega
      · simp only [hs]
        simp
        have := iha pl' letter hrest
        split <;> omega

lemma postStep_bound (a : List Char) (pl : List (List Char)) (minl minl' : AssocNat)
    (idx : Nat)
    (hmem : List.Forall₂ (fun x s => x ∈ s) a pl)
    (hb : ∀ p ∈ minl, p.2 ≤ a.count p.1)
    (h : postStep pl minl idx = some minl') :
    ∀ p ∈ minl', p.2 ≤ a.count p.1 := by
  rw [postStep] at h
  dsimp only at h
  by_cases hlen : (pl.getD idx []).length > 1
  · rw [if_pos hlen] at h
    simp only [Option.some.injEq] at h
    subst h
    exact hb
  · rw [if_neg hlen] at h
    cases hh : (pl.getD idx []).head? with
    | none => rw [hh] at h; cases h
    | some letter =>
      rw [hh] at h
      dsimp only at h
      cases hg : alGet minl letter with
      | none => rw [hg] at h; cases h
      | some old =>
        rw [hg] at h
        simp only [Option.some.injEq] at h
        subst h
        have hs : pl.getD idx [] = [letter] := by
          cases hsl : pl.getD idx [] with
          | nil => rw [hsl] at hh; cases hh
          | cons x xs =>
            rw [hsl] at hh hlen
            simp only [List.head?_cons, Option.some.injEq] at hh
            subst hh
            cases xs with
            | nil => rfl
            | cons y ys => simp at hlen
        intro p hp
        rcases mem_alSet minl letter _ p hp with h1 | h1
        · exact hb p h1
        · rw [h1]
          dsimp only
          have hnum : (pl.filter fun x => x = pl.getD idx []).length ≤ a.count letter := by
            rw [hs]
            exact count_filter_singleton a pl letter hmem
          have hold : old ≤ a.count letter := hb (letter, old) (alGet_mem minl letter old hg)
          exact Nat.max_le.mpr ⟨hnum, hold⟩

lemma postProcess_bound (a : List Char) (pl : List (List Char))
    (hmem : List.Forall₂ (fun x s => x ∈ s) a pl) :
    ∀ (idxs : List Nat) (minl minl' : AssocNat),
    (∀ p ∈ minl, p.2 ≤ a.count p.1) →
    idxs.foldlM (fun m i => postStep pl m i) minl = some minl' →
    ∀ p ∈ minl', p.2 ≤ a.count p.1 := by
  intro idxs
  induction idxs with
  | nil =>
    intro minl minl' hb h
    simp only [List.foldlM, pure, Option.some.injEq] at h
    subst h
    exact hb
  | cons i rest ih =>
    intro minl minl' hb h
    rw [List.foldlM_cons] at h
    cases hps : postStep pl minl i with
    | none => rw [hps] at h; cases h
    | some m =>
      rw [hps] at h
      exact ih m minl' (postStep_bound a pl minl m i hmem hb hps) h

lemma derive_preserves (a g : List Char) (wi wi' : WordleInformation)
    (ha5 : a.length = 5) (hg5 : g.length = 5)
    (hpl : wi.possible_letters.length = 5)
    (hmem : List.Forall₂ (fun x s => x ∈ s) a wi.possible_letters)
    (hmin : ∀ p ∈ wi.minimum_letters, p.2 ≤ a.count p.1)
    (hmax : ∀ p ∈ wi.maximum_letters, a.count p.1 ≤ p.2)
    (h : derive (some wi) (some (g, make_guess g a)) = some wi') :
    wi'.possible_letters.length = 5 ∧
    List.Forall₂ (fun x s => x ∈ s) a wi'.possible_letters ∧
    (∀ p ∈ wi'.minimum_letters, p.2 ≤ a.count p.1) ∧
    (∀ p ∈ wi'.maximum_letters, a.count p.1 ≤ p.2) := by
  have hlen : g.length = a.length := hg5.trans ha5.symm
  rw [derive] at h
  set out := make_guess g a with hout
  set po := g.zip out with hpo
  set nmin := (processGY po wi.possible_letters []).2 with hnmin
  set pl1 := (processGY po wi.possible_letters []).1 with hpl1
  set nmax := (processGray po pl1 nmin []).2 with hnmax
  set pl2 := (processGray po pl1 nmin []).1 with hpl2
  set minl1 := mergeMins wi.minimum_letters nmin with hminl1
  set maxl1 := updateMax wi.maximum_letters nmax with hmaxl1
  rw [Option.map_eq_some'] at h
  obtain ⟨m, hpp, hwi⟩ := h
  have hTF := make_guess_rel g a wi.possible_letters hlen hmem
  have hm1 : List.Forall₂ (fun x s => x ∈ s) a pl1 :=
    processGY_mem po a wi.possible_letters [] (ha5.trans hpl.symm) hTF
  have hlen1 : pl1.length = 5 := by
    rw [hpl1, processGY_length, hpl]
  have hpolen : po.length ≤ wi.possible_letters.length := by
    rw [hpo, List.length_zip, hpl]
    omega
  have htally : ∀ c, (alGet nmin c).getD 0 = tallyPairs po c := by
    intro c
    rw [hnmin, processGY_tally po wi.possible_letters [] c hpolen]
    simp [alGet]
  have hsorted : keysSorted nmin := by
    rw [hnmin]
    exact processGY_sorted po wi.possible_letters [] (by simp [keysSorted])
  have hgray : ∀ c, (c, '-') ∈ po → (alGet nmin c).getD 0 = a.count c := by
    intro c hc
    rw [htally c]
    exact (make_guess_tally g a hlen c).2 hc
  have hm2 : List.Forall₂ (fun x s => x ∈ s) a pl2 :=
    processGray_mem po a pl1 nmin [] hgray hm1
  have hlen2 : pl2.length = 5 := by
    rw [hpl2, processGray_length, hlen1]
  have hnminB : ∀ p ∈ nmin, p.2 ≤ a.count p.1 := by
    intro p hp
    have hg := alGet_of_mem_sorted nmin p hsorted hp
    have : (alGet nmin p.1).getD 0 = p.2 := by rw [hg]; rfl
    rw [← this, htally p.1]
    exact (make_guess_tally g a hlen p.1).1
  have hnmaxB : ∀ p ∈ nmax, a.count p.1 ≤ p.2 := by
    intro p hp
    rw [hnmax] at hp
    rcases processGray_maxEntries po pl1 nmin [] p hp with h1 | ⟨h1, h2⟩
    · cases h1
    · rw [h2, hgray p.1 h1]
  have hminl1B : ∀ p ∈ minl1, p.2 ≤ a.count p.1 :=
    mergeMins_bound a nmin wi.minimum_letters hmin hnminB
  have hmaxl1B : ∀ p ∈ maxl1, a.count p.1 ≤ p.2 :=
    updateMax_bound a nmax wi.maximum_letters hmax hnmaxB
  have hmB : ∀ p ∈ m, p.2 ≤ a.count p.1 :=
    postProcess_bound a pl2 hm2 (List.range 5) minl1 m hminl1B hpp
  rw [← hwi]
  exact ⟨hlen2, hm2, hmB, hmaxl1B⟩

lemma is_valid_word_of (wi : WordleInformation) (a : List Char)
    (ha5 : a.length = 5) (hpl : wi.possible_letters.length = 5)
    (hmem : List.Forall₂ (fun x s => x ∈ s) a wi.possible_letters)
    (hmin : ∀ p ∈ wi.minimum_letters, p.2 ≤ a.count p.1)
    (hmax : ∀ p ∈ wi.maximum_letters, a.count p.1 ≤ p.2) :
    wi.is_valid_word a = true := by
  rw [WordleInformation.is_valid_word]
  simp only [Bool.and_eq_true, List.all_eq_true, decide_eq_true_eq]
  refine ⟨⟨?_, ?_⟩, ?_⟩
  · intro idx hidx
    have hi : idx < 5 := List.mem_range.mp hidx
    have hia : idx < a.length := by omega
    have hipl : idx < wi.possible_letters.length := by omega
    rw [List.getD_eq_getElem a '?' hia, List.getD_eq_getElem wi.possible_letters [] hipl]
    have := (List.forall₂_iff_get.mp hmem).2 idx hia hipl
    simp only [List.get_eq_getElem] at this
    exact List.elem_iff.mpr this
  · intro p hp
    exact hmax p hp
  · intro p hp
    exact hmin p hp

lemma emptyWI_mem : ∀ (a : List Char), (∀ c ∈ a, c ∈ alphabet) →
    List.Forall₂ (fun x s => x ∈ s) a (List.replicate a.length alphabet) := by
  intro a
  induction a with
  | nil => intro _; exact List.Forall₂.nil
  | cons a0 a' ih =>
    intro haA
    rw [List.length_cons, List.replicate_succ]
    exact List.Forall₂.cons (haA a0 (List.mem_cons_self _ _))
      (ih fun c hc => haA c (List.mem_cons_of_mem _ hc))

lemma buildInfo_invariant (a : List Char) (ha5 : a.length = 5) :
    ∀ (guesses : List (List Char)) (wi0 : WordleInformation),
    (∀ g ∈ guesses, g.length = 5) →
    wi0.possible_letters.length = 5 →
    List.Forall₂ (fun x s => x ∈ s) a wi0.possible_letters →
    (∀ p ∈ wi0.minimum_letters, p.2 ≤ a.count p.1) →
    (∀ p ∈ wi0.maximum_letters, a.count p.1 ≤ p.2) →
    ∀ wi, guesses.foldlM
      (fun w g => derive (some w) (some (g, make_guess g a))) wi0 = some wi →
    (wi.possible_letters.length = 5 ∧
     List.Forall₂ (fun x s => x ∈ s) a wi.possible_letters ∧
     (∀ p ∈ wi.minimum_letters, p.2 ≤ a.count p.1) ∧
     (∀ p ∈ wi.maximum_letters, a.count p.1 ≤ p.2)) := by
  intro guesses
  induction guesses with
  | nil =>
    intro wi0 _ h1 h2 h3 h4 wi h
    simp only [List.foldlM, pure, Option.some.injEq] at h
    subst h
    exact ⟨h1, h2, h3, h4⟩
  | cons g rest ih =>
    intro wi0 hg h1 h2 h3 h4 wi h
    rw [List.foldlM_cons] at h
    cases hd : derive (some wi0) (some (g, make_guess g a)) with
    | none => rw [hd] at h; cases h
    | some wi1 =>
      rw [hd] at h
      obtain ⟨k1, k2, k3, k4⟩ := derive_preserves a g wi0 wi1 ha5
        (hg g (List.mem_cons_self _ _)) h1 h2 h3 h4 hd
      exact ih wi1 (fun g' hg' => hg g' (List.mem_cons_of_mem _ hg')) k1 k2 k3 k4 wi h

/-- C9 (confirmed): the true answer is never filtered out.  For every
five-letter lowercase answer and every sequence of five-letter guesses, any
state built by successively deriving `WordleInformation` from the truthful
`make_guess` feedback keeps the answer valid.  Since every prefix of a guess
sequence is itself a guess sequence, this covers every intermediate step.
(When the constructor's minimum-count floor pass raises — `none` — no state
is built.) -/
theorem c9_answer_never_filtered (a : List Char) (guesses : List (List Char))
    (ha5 : a.length = 5) (haA : ∀ c ∈ a, c ∈ alphabet)
    (hg : ∀ g ∈ guesses, g.length = 5) (wi : WordleInformation)
    (h : buildInfo a guesses = some wi) :
    wi.is_valid_word a = true := by
  obtain ⟨k1, k2, k3, k4⟩ := buildInfo_invariant a ha5 guesses emptyWI hg
    (by simp [emptyWI]) (by rw [emptyWI]; exact ha5 ▸ emptyWI_mem a haA)
    (by intro p hp; cases hp) (by intro p hp; cases hp) wi h
  exact is_valid_word_of wi a ha5 k1 k2 k3 k4

/-- Witness for `c9_answer_never_filtered`: the worked "abbey" scenario from
the test suite; the derivation chain succeeds and keeps "abbey" valid. -/
theorem c9_witness :
    ("abbey".toList.length = 5 ∧ (∀ c ∈ "abbey".toList, c ∈ alphabet) ∧
     (∀ g ∈ ["opens".toList, "babes".toList, "kebab".toList, "abyss".toList],
        g.length = 5)) ∧
    (∀ wi, buildInfo "abbey".toList
        ["opens".toList, "babes".toList, "kebab".toList, "abyss".toList] = some wi →
      wi.is_valid_word "abbey".toList = true) ∧
    (buildInfo "abbey".toList
        ["opens".toList, "babes".toList, "kebab".toList, "abyss".toList]).isSome = true :=
  ⟨⟨by decide, by decide, by decide⟩,
   fun wi h => c9_answer_never_filtered "abbey".toList
     ["opens".toList, "babes".toList, "kebab".toList, "abyss".toList]
     (by decide) (by decide) (by decide) wi h,
   by decide⟩

/-- C1 (corrected): for states reachable from truthful `make_guess` feedback
against a fixed answer, a letter recorded in both `minimum_letters` and
`maximum_letters` satisfies `minimum ≤ maximum` (both bounds sandwich the
answer's own letter count).  Arbitrary guess/feedback sequences violate the
invariant, cf. the counterexample. -/
theorem c1_min_le_max_truthful (a : List Char) (guesses : List (List Char))
    (ha5 : a.length = 5) (haA : ∀ c ∈ a, c ∈ alphabet)
    (hg : ∀ g ∈ guesses, g.length = 5) (wi : WordleInformation)
    (h : buildInfo a guesses = some wi) (c : Char) (m M : Nat)
    (hm : alGet wi.minimum_letters c = some m)
    (hM : alGet wi.maximum_letters c = some M) : m ≤ M := by
  obtain ⟨k1, k2, k3, k4⟩ := buildInfo_invariant a ha5 guesses emptyWI hg
    (by simp [emptyWI]) (by rw [emptyWI]; exact ha5 ▸ emptyWI_mem a haA)
    (by intro p hp; cases hp) (by intro p hp; cases hp) wi h
  have h1 : m ≤ a.count c := k3 (c, m) (alGet_mem wi.minimum_letters c m hm)
  have h2 : a.count c ≤ M := k4 (c, M) (alGet_mem wi.maximum_letters c M hM)
  omega

/-- Witness for `c1_min_le_max_truthful`: after guessing "algae" against
"abbey", the letter 'a' has minimum 1 and maximum 1. -/
theorem c1_witness :
    ("abbey".toList.length = 5 ∧ (∀ c ∈ "abbey".toList, c ∈ alphabet) ∧
     (∀ g ∈ ["algae".toList], g.length = 5) ∧
     buildInfo "abbey".toList ["algae".toList]
       = some ((buildInfo "abbey".toList ["algae".toList]).getD emptyWI) ∧
     alGet ((buildInfo "abbey".toList ["algae".toList]).getD emptyWI).minimum_letters 'a'
       = some 1 ∧
     alGet ((buildInfo "abbey".toList ["algae".toList]).getD emptyWI).maximum_letters 'a'
       = some 1) ∧
    (1 : Nat) ≤ 1 :=
  ⟨⟨by decide, by decide, by decide, by decide, by decide, by decide⟩,
   c1_min_le_max_truthful "abbey".toList ["algae".toList] (by decide) (by decide)
     (by decide) ((buildInfo "abbey".toList ["algae".toList]).getD emptyWI) (by decide)
     'a' 1 1 (by decide) (by decide)⟩

/-! ## C4: the guess valuation formula -/

lemma foldl_weighted : ∀ (l : List (Nat × ℚ)) (acc : ℚ),
    l.foldl (fun acc p => acc + (p.1 : ℚ) * p.2) acc
      = acc + (l.map fun p => (p.1 : ℚ) * p.2).sum := by
  intro l
  induction l with
  | nil => intro acc; simp
  | cons p rest ih =>
    intro acc
    rw [List.foldl_cons, ih, List.map_cons, List.sum_cons]
    ring

unseal Rat.add Rat.mul Rat.inv in
/-- C4 (confirmed): whenever no exception occurs, `get_guess_value` returns
the weighted average of the per-hypothetical-answer remaining-candidate
counts, normalized by the sum of the (defaulted) weights; in particular on
the documented example it returns 5/4 with uniform weights and 1 with
weights [2, 1, 1, 1]. -/
theorem c4_guess_value :
    (∀ (g : List Char) (words : List (List Char)) (w : Option (List ℚ))
       (wi0 : Option WordleInformation) (counts : List Nat),
       remainingCounts g words (wi0.getD emptyWI) = some counts →
       (w.getD (List.replicate words.length 1)).sum ≠ 0 →
       get_guess_value g words w wi0
         = .ok (specWeightedAverage counts (w.getD (List.replicate words.length 1)))) ∧
    get_guess_value "grain".toList
      ["grain".toList, "grown".toList, "stews".toList, "weeds".toList] none none
      = .ok (5/4) ∧
    get_guess_value "grain".toList
      ["grain".toList, "grown".toList, "stews".toList, "weeds".toList]
      (some [2, 1, 1, 1]) none = .ok 1 := by
  refine ⟨?_, by rfl, by rfl⟩
  intro g words w wi0 counts hc hs
  rw [get_guess_value]
  dsimp only
  rw [hc]
  dsimp only
  rw [if_neg hs, specWeightedAverage, foldl_weighted]
  rw [zero_add]

unseal Rat.add Rat.mul Rat.inv in
/-- Witness for the universally quantified component of `c4_guess_value`,
at the documented example with weights [2, 1, 1, 1]. -/
theorem c4_witness :
    (remainingCounts "grain".toList
        ["grain".toList, "grown".toList, "stews".toList, "weeds".toList]
        ((none : Option WordleInformation).getD emptyWI) = some [0, 1, 2, 2] ∧
     ((some [2, 1, 1, 1] : Option (List ℚ)).getD
        (List.replicate (["grain".toList, "grown".toList, "stews".toList,
          "weeds".toList].length) 1)).sum ≠ 0) ∧
    get_guess_value "grain".toList
        ["grain".toList, "grown".toList, "stews".toList, "weeds".toList]
        (some [2, 1, 1, 1]) none
      = .ok (specWeightedAverage [0, 1, 2, 2]
          ((some [2, 1, 1, 1] : Option (List ℚ)).getD
            (List.replicate (["grain".toList, "grown".toList, "stews".toList,
              "weeds".toList].length) 1))) :=
  ⟨⟨by rfl, by decide⟩,
   c4_guess_value.1 "grain".toList
     ["grain".toList, "grown".toList, "stews".toList, "weeds".toList]
     (some [2, 1, 1, 1]) none [0, 1, 2, 2] (by rfl) (by decide)⟩
